import Mathlib

/-!
Shallow embedding of the flexparser grammar engine
(`src/flexparser/flexparser.py`) and proofs about it.

Conventions of the embedding:
* a statement string is a `List Char`; a source is a `List (List Char)`
  of its lines (newlines already stripped by the reader);
* line and column numbers are `Int`, matching Python integers; the
  `Element` position sentinel is `(-1, -1)`;
* the SHA-1 accumulator of `HashIterator` is modelled by the list of
  consumed `(lineno, colno, statement)` triples in consumption order:
  `pickle.dumps` is deterministic and injective on these tuples, so two
  digests are equal exactly when the serialized streams are equal;
* Python's `StopIteration` propagation is modelled by an explicit
  result constructor carrying the iterator state at raise time;
* the unbounded `while` loop of `Block.consume` is modelled with a
  structural fuel parameter; `RootBlock.consume` supplies a fuel that
  is proved sufficient (`engine_master`), so the wrapper is total.
-/

namespace Flexparser

/-- Position-annotated triple yielded by `SequenceIterator`:
line number, column number, statement text. -/
abbrev Triple := Int × Int × List Char

/-- Payload of a tree element. `stmt`/`perr` abstract the
grammar author's `ParsedStatement` and `ParsingError` subclasses (a class
tag plus opaque data); `includeStmt` abstracts accepted values of
`IncludeStatement` subclasses, carrying their `target`; `unknown` is
`UnknownStatement`; `unexpectedEOF` is `UnexpectedEOF`; `bos`/`eos` are
the synthetic stream markers. -/
inductive Payload where
  | stmt (tag : Nat) (data : List Char)
  | includeStmt (target : List Char)
  | perr (tag : Nat) (data : List Char)
  | unknown (text : List Char)
  | unexpectedEOF
  | bos
  | eos
deriving DecidableEq, Repr

/-- Mirrors `isinstance(el, ParsingError)` on payloads: `perr`,
`UnknownStatement` and `UnexpectedEOF` are `ParsingError` subclasses;
`bos`, `eos`, `stmt` and `includeStmt` are not. -/
def isError : Payload → Bool
  | .perr _ _ => true
  | .unknown _ => true
  | .unexpectedEOF => true
  | _ => false

/-- Mirrors `Element`: a payload stamped with `lineno`/`colno`
(default sentinel `(-1, -1)`, set once by `set_line_col`). -/
structure Elem where
  lineno : Int
  colno : Int
  payload : Payload
deriving DecidableEq, Repr

/-- Mirrors `DelimiterMode`. -/
inductive DelimiterMode where
  | SKIP
  | WITH_PREVIOUS
  | WITH_NEXT
deriving DecidableEq, Repr

/-- A delimiter configuration: the `delimiters` dict of the source in
insertion order, each key mapped to `(DelimiterMode, stop_parsing_flag)`. -/
abbrev DelimConf := List (List Char × DelimiterMode × Bool)

/-- Position of the first delimiter match in `rest` together with the
matched delimiter, mirroring one `re.finditer` step over the alternation
pattern built by `_build_delimiter_pattern` (alternatives tried in dict
order at each position, scanning left to right). Empty delimiter strings
never match, as the spec only admits literal delimiter strings. -/
def firstMatch (delims : List (List Char)) : List Char → Option (Nat × List Char)
  | [] => none
  | c :: cs =>
    match delims.find? (fun d => !d.isEmpty && d.isPrefixOf (c :: cs)) with
    | some d => some (0, d)
    | none => (firstMatch delims cs).map (fun p => (p.1 + 1, p.2))

/-- Mirrors `isplit`: yield `(col, part_before, delimiter)` for every
match, then a final `(col, tail, none)`. The fuel argument is a
structural-recursion bound; it is called with `line.length + 1`, enough
for every match since each consumed delimiter is nonempty, and the
fuel-exhausted fallback coincides with the no-more-matches case. -/
def isplitGo (delims : List (List Char)) : Nat → Nat → List Char →
    List (Nat × List Char × Option (List Char))
  | 0, col, rest => [(col, rest, none)]
  | fuel + 1, col, rest =>
    match firstMatch delims rest with
    | none => [(col, rest, none)]
    | some (j, d) =>
      (col, rest.take j, some d) ::
        isplitGo delims fuel (col + j + d.length) (rest.drop (j + d.length))

/-- Mirrors `isplit pattern line` (the pattern being the compiled
alternation of the delimiter strings). -/
def isplit (delims : List (List Char)) (line : List Char) :
    List (Nat × List Char × Option (List Char)) :=
  isplitGo delims (line.length + 1) 0 line

/-- Mirrors the `delimiters[dlm]` lookup of `isplit_mode`. The default
is never used: every matched delimiter is a key of the dict. -/
def lookupDelim (delims : DelimConf) (d : List Char) : DelimiterMode × Bool :=
  ((delims.find? (fun e => e.1 = d)).map (fun e => e.2)).getD (DelimiterMode.SKIP, false)

/-- Loop body of `isplit_mode`, folding over the `isplit` output with
the `dragged` carry and the `break_next` flag. `line.drop col` mirrors
`line[col:]` in the stop branch. -/
def isplitModeGo (delims : DelimConf) (line : List Char) :
    List (Nat × List Char × Option (List Char)) → List Char → Bool → List (Int × List Char)
  | [], _, _ => []
  | (col, part, dlm) :: rest, dragged, break_next =>
    if break_next then
      [((col : Int) - dragged.length, dragged ++ line.drop col)]
    else
      match dlm with
      | none =>
        (if part = [] then [] else [((col : Int) - dragged.length, dragged ++ part)]) ++
          isplitModeGo delims line rest [] false
      | some d =>
        let mb := lookupDelim delims d
        let part1 : List Char :=
          match mb.1 with
          | DelimiterMode.WITH_PREVIOUS => part ++ d
          | _ => part
        let nextDrag : List Char :=
          match mb.1 with
          | DelimiterMode.WITH_NEXT => d
          | _ => []
        (if part1 = [] then [] else [((col : Int) - dragged.length, dragged ++ part1)]) ++
          isplitModeGo delims line rest nextDrag mb.2

/-- Mirrors `isplit_mode delimiters line`. -/
def isplit_mode (delims : DelimConf) (line : List Char) : List (Int × List Char) :=
  isplitModeGo delims line (isplit (delims.map (fun e => e.1)) line) [] false

/-- Mirrors `str.strip()` on the left. -/
def lstrip (s : List Char) : List Char := s.dropWhile Char.isWhitespace

/-- Mirrors `str.strip()` on the right. -/
def rstrip (s : List Char) : List Char := (s.reverse.dropWhile Char.isWhitespace).reverse

/-- Mirrors `str.strip()`. -/
def strip (s : List Char) : List Char := lstrip (rstrip s)

/-- Mirrors `StatementIterator.from_line`: split by the configured
delimiters (an empty configuration degenerates to the whole line at
column 0), then optionally strip whitespace from each statement. -/
def from_line (strip_spaces : Bool) (delims : DelimConf) (line : List Char) :
    List (Int × List Char) :=
  let base := if delims.isEmpty then [((0 : Int), line)] else isplit_mode delims line
  if strip_spaces then base.map (fun p => (p.1, strip p.2)) else base

/-- Mirrors the generator of `SequenceIterator.from_lines` from line
number `n` on: statements of each line tagged with `(lineno, colno)`,
empty statements filtered out. -/
def fromLinesAux (strip_spaces : Bool) (delims : DelimConf) :
    Nat → List (List Char) → List Triple
  | _, [] => []
  | n, line :: rest =>
    ((from_line strip_spaces delims line).filterMap
        (fun p => if p.2 = [] then none else some ((n : Int), p.1, p.2))) ++
      fromLinesAux strip_spaces delims (n + 1) rest

/-- Mirrors `SequenceIterator.from_lines` (with `enumerate` starting at 0). -/
def from_lines (strip_spaces : Bool) (delims : DelimConf) (lines : List (List Char)) :
    List Triple :=
  fromLinesAux strip_spaces delims 0 lines

/-- State of a `HashSequenceIterator`: the `BaseIterator` lookahead
deque, the remaining underlying iterator, and the hash accumulator
(modelled as the serialized stream of consumed triples). -/
structure HashIt where
  cache : List Triple
  it : List Triple
  hashed : List Triple
deriving DecidableEq, Repr

/-- The triples the iterator will still yield, in order. -/
def remaining (s : HashIt) : List Triple := s.cache ++ s.it

/-- Mirrors `BaseIterator.peek` without a default: `none` models a
raised `StopIteration` (possible only when nothing remains). A fresh
element pulled from the underlying iterator is stored in the cache and
is NOT hashed. -/
def peek (s : HashIt) : Option (Triple × HashIt) :=
  match s.cache with
  | x :: _ => some (x, s)
  | [] =>
    match s.it with
    | [] => none
    | y :: ys => some (y, ⟨[y], ys, s.hashed⟩)

/-- Mirrors `HashIterator.__next__` (over `BaseIterator.__next__`):
pop the cache if nonempty, else pull from the underlying iterator;
the returned element is fed to the hash accumulator. `none` models a
raised `StopIteration`. -/
def hnext (s : HashIt) : Option (Triple × HashIt) :=
  match s.cache with
  | x :: xs => some (x, ⟨xs, s.it, s.hashed ++ [x]⟩)
  | [] =>
    match s.it with
    | [] => none
    | y :: ys => some (y, ⟨[], ys, s.hashed ++ [y]⟩)

/-- A statement shape specialized to one parser configuration:
`fun s => cls.from_string_and_config(s, config)`. `none` means the
string cannot be parsed with this class; `some p` is either a parsed
statement or a `ParsingError` payload (both advance the iterator). -/
abbrev StmtShape := List Char → Option Payload

/-- Result of a `consume` call. `stopIter` models a `StopIteration`
escaping the call, carrying the iterator state at raise time; `notMine`
models returning `None` with the iterator logically unmoved; `fuelOut`
is the modelling artifact for exhausted fuel (proved unreachable for
the fuel supplied by `RootBlock.consume`). -/
inductive CRes (α : Type) where
  | stopIter (s : HashIt)
  | notMine (s : HashIt)
  | ok (a : α) (s : HashIt)
  | fuelOut

/-- Mirrors `ParsedStatement.consume`: peek (propagating exhaustion),
try to parse, return `None` without advancing on failure, otherwise
advance and stamp the peeked `(lineno, colno)` on the value. -/
def stmtConsume (fp : StmtShape) (s : HashIt) : CRes Elem :=
  match peek s with
  | none => .stopIter s
  | some ((l, c, txt), s1) =>
    match fp txt with
    | none => .notMine s1
    | some p =>
      match hnext s1 with
      | none => .stopIter s1
      | some (_, s2) => .ok ⟨l, c, p⟩ s2

/-- Mirrors the `for c in cls.opening_classes / closing_classes` loops of
`Block.consume_opening` and `Block.consume_closing`: first non-`None`
result wins, all-`None` yields `notMine`. -/
def tryStatements (shapes : List StmtShape) (s : HashIt) : CRes Elem :=
  match shapes with
  | [] => .notMine s
  | fp :: rest =>
    match stmtConsume fp s with
    | .notMine s1 => tryStatements rest s1
    | r => r

mutual
/-- A body class of a block: a `ParsedStatement` subclass or a nested
`Block` subclass given by its reflected `opening_classes`,
`body_classes` and `closing_classes` (in declaration order). -/
inductive BClass where
  | stmt : StmtShape → BClass
  | blk : List StmtShape → BClassL → List StmtShape → BClass
/-- An ordered list of body classes (mutual with `BClass` so that
functions can recurse structurally through the nesting). -/
inductive BClassL where
  | nil : BClassL
  | cons : BClass → BClassL → BClassL
end

mutual
/-- Structural size of a body class, used for the fuel bound. -/
def sizeC : BClass → Nat
  | .stmt _ => 1
  | .blk _ bd _ => 1 + sizeCL bd
/-- Structural size of a body class list. -/
def sizeCL : BClassL → Nat
  | .nil => 0
  | .cons c t => 1 + sizeC c + sizeCL t
end

mutual
/-- A value of the parsed tree: a committed statement value, or a
`Block` value `(opening, body, closing)`. -/
inductive BElem where
  | leaf : Elem → BElem
  | block : Elem → BBody → Elem → BElem
/-- The body of a block value, in source order (mutual with `BElem`). -/
inductive BBody where
  | nil : BBody
  | cons : BElem → BBody → BBody
end

/-- Converts an accumulated body list into a `BBody`. -/
def toBody : List BElem → BBody
  | [] => .nil
  | x :: t => .cons x (toBody t)

mutual
/-- Mirrors `Block.__iter__`: opening, then the body with nested blocks
flattened inline, then closing. -/
def flattenE : BElem → List Elem
  | .leaf e => [e]
  | .block o b c => o :: flattenB b ++ [c]
/-- Flattening of a block body. -/
def flattenB : BBody → List Elem
  | .nil => []
  | .cons x t => flattenE x ++ flattenB t
end

/-- Opening element of a block value (identity on leaves). -/
def openingE : BElem → Elem
  | .leaf e => e
  | .block o _ _ => o

/-- Closing element of a block value (identity on leaves). -/
def closingE : BElem → Elem
  | .leaf e => e
  | .block _ _ c => c

/-- A request to the consume engine: dispatch the body classes on the
next statement (`Block.consume_body`), consume a whole nested block
(`Block.consume`), or run one iteration of the `while closing is None`
loop of `Block.consume` (opening already committed, body accumulated in
reverse). -/
inductive Req where
  | bodyDispatch (bc : BClassL)
  | blockConsume (op : List StmtShape) (bd : BClassL) (cl : List StmtShape)
  | loopStep (opEl : Elem) (acc : List BElem) (bd : BClassL) (cl : List StmtShape)
      (onStop : Elem)

/-- The consume engine, a fuel-indexed merge of `Block.consume_body`,
`Block.consume` and the loop inside `Block.consume`.

`bodyDispatch`: try each body class in order; if none claims the next
triple, consume it unconditionally as `UnknownStatement` (stamped with
its line and column); pulling from an exhausted iterator propagates
`StopIteration`.

`blockConsume`: try the opening classes; `notMine` without advancing when
none matches; otherwise enter the loop with `UnexpectedEOF` as the
`on_stop_iteration` value.

`loopStep`: try the closing classes first; a match commits the closing
and returns the block; a `StopIteration` raised while consuming closing
or body is caught and the `onStop` value becomes the closing; otherwise
one body element is consumed and the loop continues. -/
def engine : Nat → Req → HashIt → CRes BElem
  | 0, _, _ => .fuelOut
  | _ + 1, .bodyDispatch .nil, s =>
    match hnext s with
    | none => .stopIter s
    | some ((l, c, txt), s1) => .ok (.leaf ⟨l, c, .unknown txt⟩) s1
  | fuel + 1, .bodyDispatch (.cons (.stmt fp) rest), s =>
    match stmtConsume fp s with
    | .notMine s1 => engine fuel (.bodyDispatch rest) s1
    | .stopIter s1 => .stopIter s1
    | .ok e s1 => .ok (.leaf e) s1
    | .fuelOut => .fuelOut
  | fuel + 1, .bodyDispatch (.cons (.blk op bd cl) rest), s =>
    match engine fuel (.blockConsume op bd cl) s with
    | .notMine s1 => engine fuel (.bodyDispatch rest) s1
    | r => r
  | fuel + 1, .blockConsume op bd cl, s =>
    match tryStatements op s with
    | .notMine s1 => .notMine s1
    | .stopIter s1 => .stopIter s1
    | .fuelOut => .fuelOut
    | .ok opEl s1 => engine fuel (.loopStep opEl [] bd cl ⟨-1, -1, .unexpectedEOF⟩) s1
  | fuel + 1, .loopStep opEl acc bd cl onStop, s =>
    match tryStatements cl s with
    | .ok clEl s1 => .ok (.block opEl (toBody acc.reverse) clEl) s1
    | .stopIter s1 => .ok (.block opEl (toBody acc.reverse) onStop) s1
    | .fuelOut => .fuelOut
    | .notMine s1 =>
      match engine fuel (.bodyDispatch bd) s1 with
      | .ok el s2 => engine fuel (.loopStep opEl (el :: acc) bd cl onStop) s2
      | .stopIter s2 => .ok (.block opEl (toBody acc.reverse) onStop) s2
      | .notMine _ => .fuelOut
      | .fuelOut => .fuelOut

/-- Fuel that `engine_master` proves sufficient for a root-block parse. -/
def rootFuel (bd : BClassL) (s : HashIt) : Nat :=
  ((remaining s).length + 1) * (sizeCL bd + 2)

/-- Mirrors `RootBlock.consume`: `consume_opening` is overridden to
produce `BOS` at `(0, 0)` without consulting the iterator,
`consume_closing` is overridden to always return `None` (an empty
closing-class list behaves identically), and `on_stop_iteration` is
overridden to produce `EOS` (whose position stays the `(-1, -1)`
sentinel). The non-`ok` fallbacks are unreachable (`engine_master`). -/
def rootConsume (bd : BClassL) (s : HashIt) : BElem × HashIt :=
  match engine (rootFuel bd s) (.loopStep ⟨0, 0, .bos⟩ [] bd [] ⟨-1, -1, .eos⟩) s with
  | .ok b s1 => (b, s1)
  | .stopIter s1 => (.block ⟨0, 0, .bos⟩ .nil ⟨-1, -1, .eos⟩, s1)
  | .notMine s1 => (.block ⟨0, 0, .bos⟩ .nil ⟨-1, -1, .eos⟩, s1)
  | .fuelOut => (.block ⟨0, 0, .bos⟩ .nil ⟨-1, -1, .eos⟩, s)

/-- A source identifier, kept abstract (the Python code uses resolved
paths or `(package, resource)` pairs; the locator is pluggable, so only
identity of identifiers matters to the include driver). -/
abbrev SourceId := List Char

/-- Mirrors `ParsedSourceFile`/`ParsedResource` for parsing purposes:
the parsed tree, the content hash (the serialized consumed-triple
stream, see `HashIt`), and the `origin`. -/
structure ParsedSrc where
  tree : BElem
  content_hash : List Triple
  origin : SourceId

/-- Mirrors `Parser.parse_file` minus the actual I/O: wrap the split
lines in a fresh `HashSequenceIterator`, consume the root block, and
record the digest of what was consumed. -/
def parseSource (bd : BClassL) (strip_spaces : Bool) (delims : DelimConf)
    (lines : List (List Char)) (origin : SourceId) : ParsedSrc :=
  let r := rootConsume bd ⟨[], from_lines strip_spaces delims lines, []⟩
  ⟨r.1, r.2.hashed, origin⟩

/-- Mirrors `parser.parse(location)` over an abstract world mapping a
source identifier to its lines. -/
def parseOne (bd : BClassL) (strip_spaces : Bool) (delims : DelimConf)
    (world : SourceId → List (List Char)) (loc : SourceId) : ParsedSrc :=
  parseSource bd strip_spaces delims (world loc) loc

/-- Mirrors `parsed.parsed_source.filter_by(IncludeStatement)` followed
by taking each value's `target`. -/
def includesOf (t : BElem) : List (List Char) :=
  (flattenE t).filterMap (fun e =>
    match e.payload with
    | .includeStmt tgt => some tgt
    | _ => none)

/-- A project key: `none` for the root entry, else
`(including_origin, target_string)`. -/
abbrev KeyT := Option (SourceId × List Char)

/-- A `ParsedProject` as an insertion-ordered dictionary. -/
abbrev PP := List (KeyT × ParsedSrc)

/-- Mirrors `pp[key] = parsed` on an insertion-ordered dict: an existing
key keeps its position and gets the new value; a fresh key is appended. -/
def dictInsert : PP → KeyT → ParsedSrc → PP
  | [], k, v => [(k, v)]
  | (k0, v0) :: rest, k, v =>
    if k0 = k then (k0, v) :: rest else (k0, v0) :: dictInsert rest k v

/-- Mirrors `pp[key]` as a lookup. -/
def lookupPP : PP → KeyT → Option ParsedSrc
  | [], _ => none
  | (k, v) :: rest, key => if k = key then some v else lookupPP rest key

/-- Mirrors the `while pending:` loop of `parse`: pop the front of the
FIFO, parse the located source, assign it under
`(including_origin, target)`, and append the new source's own include
targets to the queue. The fuel bounds the number of dequeues; `none`
models a run that does not terminate within it (the Python loop has no
cycle protection). -/
def driver (world : SourceId → List (List Char)) (locator : SourceId → List Char → SourceId)
    (bd : BClassL) (strip_spaces : Bool) (delims : DelimConf) :
    Nat → PP → List (SourceId × List Char) → Option PP
  | _, pp, [] => some pp
  | 0, _, _ :: _ => none
  | fuel + 1, pp, (src, tgt) :: rest =>
    let parsed := parseOne bd strip_spaces delims world (locator src tgt)
    driver world locator bd strip_spaces delims fuel
      (dictInsert pp (some (src, tgt)) parsed)
      (rest ++ (includesOf parsed.tree).map (fun t => (parsed.origin, t)))

/-- Mirrors `parse(entry_point, spec, ...)` after the grammar has been
normalized: parse the entry under key `None`, then run the pending
queue. -/
def parseProject (fuel : Nat) (world : SourceId → List (List Char))
    (locator : SourceId → List Char → SourceId) (bd : BClassL)
    (strip_spaces : Bool) (delims : DelimConf) (entry : SourceId) : Option PP :=
  let parsed := parseOne bd strip_spaces delims world entry
  driver world locator bd strip_spaces delims fuel [(none, parsed)]
    ((includesOf parsed.tree).map (fun t => (parsed.origin, t)))

/-- Modelled from the spec, for comparison with `parseProject`: the
breadth-first discovery sequence of include keys. Pending
`(including_origin, target)` pairs are processed first-in-first-out;
each dequeued pair is discovered, its located source is parsed, and the
source's own include targets are appended at the back of the queue. -/
def bfsDiscovery (world : SourceId → List (List Char))
    (locator : SourceId → List Char → SourceId) (bd : BClassL)
    (strip_spaces : Bool) (delims : DelimConf) :
    Nat → List (SourceId × List Char) → Option (List (SourceId × List Char))
  | _, [] => some []
  | 0, _ :: _ => none
  | fuel + 1, (src, tgt) :: rest =>
    let parsed := parseOne bd strip_spaces delims world (locator src tgt)
    (bfsDiscovery world locator bd strip_spaces delims fuel
        (rest ++ (includesOf parsed.tree).map (fun t => (parsed.origin, t)))).map
      (fun seq => (src, tgt) :: seq)

/-- First-visit key order: fold a discovery sequence into an ordered
key list, keeping only the first occurrence of each key. -/
def keysAfter : List KeyT → List KeyT → List KeyT
  | acc, [] => acc
  | acc, k :: t => keysAfter (if k ∈ acc then acc else acc ++ [k]) t

/-- Error from `ParsedProject._iter_statements`: `dup` models the
`ValueError` raised for a repeated include under `include_only_once`;
`missing` models the `KeyError` of `self[location]`; `fuelOut` is the
modelling artifact for exhausted fuel. -/
inductive IterErr where
  | dup (loc : SourceId × List Char)
  | missing (loc : SourceId × List Char)
  | fuelOut
deriving DecidableEq, Repr

/-- Mirrors the statement loop of `ParsedProject._iter_statements` over
the flattened statements of one parsed source: include statements are
checked against `seen` (error on a repeat when `include_only_once`),
then expanded in place by recursing into `self[location]` with
`location` added to `seen`; every other statement is yielded. The seen
set threads through (Python mutates one shared set). The fuel decreases
on every recursive call so that the function is structurally recursive;
the duplicate check happens before the fuel is consulted. -/
def iterStmts (pp : PP) (once : Bool) :
    Nat → SourceId → List Elem → List KeyT → Except IterErr (List Elem × List KeyT)
  | _, _, [], seen => .ok ([], seen)
  | fuel, origin, e :: rest, seen =>
    match e.payload with
    | .includeStmt tgt =>
      if once ∧ some (origin, tgt) ∈ seen then .error (.dup (origin, tgt))
      else
        match fuel with
        | 0 => .error .fuelOut
        | f + 1 =>
          match lookupPP pp (some (origin, tgt)) with
          | none => .error (.missing (origin, tgt))
          | some parsed =>
            match iterStmts pp once f parsed.origin (flattenE parsed.tree)
                (some (origin, tgt) :: seen) with
            | .error err => .error err
            | .ok (out, seen1) =>
              match iterStmts pp once f origin rest seen1 with
              | .error err => .error err
              | .ok (out2, seen2) => .ok (out ++ out2, seen2)
    | _ =>
      match fuel with
      | 0 => .error .fuelOut
      | f + 1 =>
        match iterStmts pp once f origin rest seen with
        | .error err => .error err
        | .ok (out, seen1) => .ok (e :: out, seen1)

/-- Mirrors `ParsedProject.iter_statements`: start from the root entry
`self[None]` with `None` in the seen set. -/
def iter_statements (pp : PP) (once : Bool) (fuel : Nat) : Except IterErr (List Elem) :=
  match lookupPP pp none with
  | none => .error (.missing ([], []))
  | some rootParsed =>
    (iterStmts pp once fuel rootParsed.origin (flattenE rootParsed.tree) [none]).map
      (fun r => r.1)

/-- Mirrors `Block.errors` for one parsed source: the `ParsingError`
elements of the full recursive traversal of its tree. -/
def errorsOf (ps : ParsedSrc) : List Elem :=
  (flattenE ps.tree).filter (fun e => isError e.payload)

/-- Mirrors `ParsedProject.localized_errors`, which yields from each
entry's `_ParsedCommon.localized_errors`, which in turn yields each
error of `parsed_source.errors` unchanged. -/
def localized_errors (pp : PP) : List Elem :=
  (pp.map (fun kv => errorsOf kv.2)).flatten

/-- Modelled from the spec, for comparison with `localized_errors`:
every error of every parsed source of the project, each augmented with
the `SourceId` (origin) of the source it originated from. -/
def localizedErrorsSpec (pp : PP) : List (SourceId × Elem) :=
  (pp.map (fun kv => (errorsOf kv.2).map (fun e => (kv.2.origin, e)))).flatten

/-- No class of the list claims the statement text: every statement
shape, and every opening shape of every block shape, returns `None` on
it. (Body classes of an unopened nested block are never consulted.) -/
def claimsNone : BClassL → List Char → Prop
  | .nil, _ => True
  | .cons (.stmt fp) rest, txt => fp txt = none ∧ claimsNone rest txt
  | .cons (.blk op _ _) rest, txt => (∀ fp ∈ op, fp txt = none) ∧ claimsNone rest txt

/-- The iterator moved from state `s` to state `s1` by consuming
exactly the triples `pre`, all of which were fed to the hash
accumulator in order. -/
def Consumed (s s1 : HashIt) (pre : List Triple) : Prop :=
  remaining s = pre ++ remaining s1 ∧ s1.hashed = s.hashed ++ pre

/-- A concrete include-statement shape: accepts strings of the form
`include TARGET`, exposing the target. -/
def incShape : StmtShape := fun txt =>
  if ("include ".toList).isPrefixOf txt then some (.includeStmt (txt.drop 8)) else none

/-- A grammar whose only body class is the include shape. -/
def gramInc : BClassL := .cons (.stmt incShape) .nil

/-- A world of sources with a diamond-shaped include graph:
`R` includes `A` then `B`, and `A` includes `A1`. -/
def worldDiamond : SourceId → List (List Char) := fun s =>
  if s = "R".toList then ["include A".toList, "include B".toList]
  else if s = "A".toList then ["include A1".toList]
  else []

/-- A world where the entry source includes the same target twice. -/
def worldTwice : SourceId → List (List Char) := fun s =>
  if s = "R".toList then ["include B".toList, "include B".toList]
  else ["x".toList]

/-- A world of sources with a cyclic include graph: `A` includes `B`
and every other source (in particular `B`) includes `A`. -/
def worldCycle : SourceId → List (List Char) := fun s =>
  if s = "A".toList then ["include B".toList] else ["include A".toList]

/-- A locator that resolves every target to itself. -/
def locIdentity : SourceId → List Char → SourceId := fun _ tgt => tgt

/-- A parsed tree holding exactly one error node. -/
def treeWithError : BElem :=
  .block ⟨0, 0, .bos⟩ (.cons (.leaf ⟨0, 0, .unknown "z".toList⟩) .nil) ⟨-1, -1, .eos⟩

theorem consumed_refl (s : HashIt) : Consumed s s [] :=
  ⟨(List.nil_append _).symm, (List.append_nil _).symm⟩

theorem consumed_trans {s s1 s2 : HashIt} {p q : List Triple}
    (h1 : Consumed s s1 p) (h2 : Consumed s1 s2 q) : Consumed s s2 (p ++ q) := by
  refine ⟨?_, ?_⟩
  · rw [h1.1, h2.1, List.append_assoc]
  · rw [h2.2, h1.2, List.append_assoc]

theorem peek_nil {s : HashIt} (h : remaining s = []) : peek s = none := by
  obtain ⟨cache, it, hashed⟩ := s
  obtain ⟨hc, hi⟩ := List.append_eq_nil.mp h
  subst hc; subst hi
  rfl

theorem hnext_nil {s : HashIt} (h : remaining s = []) : hnext s = none := by
  obtain ⟨cache, it, hashed⟩ := s
  obtain ⟨hc, hi⟩ := List.append_eq_nil.mp h
  subst hc; subst hi
  rfl

theorem peek_cons {s : HashIt} {t : Triple} {rest : List Triple}
    (h : remaining s = t :: rest) :
    ∃ cs it1, peek s = some (t, ⟨t :: cs, it1, s.hashed⟩) ∧ cs ++ it1 = rest := by
  obtain ⟨cache, it, hashed⟩ := s
  cases cache with
  | nil =>
    simp only [remaining, List.nil_append] at h
    subst h
    exact ⟨[], rest, rfl, rfl⟩
  | cons x xs =>
    simp only [remaining, List.cons_append, List.cons.injEq] at h
    obtain ⟨hx, hr⟩ := h
    subst hx
    exact ⟨xs, it, rfl, hr⟩

theorem hnext_cons {s : HashIt} {t : Triple} {rest : List Triple}
    (h : remaining s = t :: rest) :
    ∃ s2, hnext s = some (t, s2) ∧ remaining s2 = rest ∧
      s2.hashed = s.hashed ++ [t] ∧ s2.cache.length ≤ s.cache.length := by
  obtain ⟨cache, it, hashed⟩ := s
  cases cache with
  | nil =>
    simp only [remaining, List.nil_append] at h
    subst h
    exact ⟨⟨[], rest, hashed ++ [t]⟩, rfl, rfl, rfl, by simp⟩
  | cons x xs =>
    simp only [remaining, List.cons_append, List.cons.injEq] at h
    obtain ⟨hx, hr⟩ := h
    subst hx
    exact ⟨⟨xs, it, hashed ++ [x]⟩, rfl, hr, rfl, by simp⟩

theorem stmtConsume_nil {fp : StmtShape} {s : HashIt} (h : remaining s = []) :
    stmtConsume fp s = .stopIter s := by
  unfold stmtConsume
  rw [peek_nil h]

theorem stmtConsume_cons (fp : StmtShape) {s : HashIt} {l c : Int} {txt : List Char}
    {rest : List Triple} (h : remaining s = (l, c, txt) :: rest) :
    (fp txt = none ∧ ∃ s1, stmtConsume fp s = .notMine s1 ∧
      remaining s1 = (l, c, txt) :: rest ∧ s1.hashed = s.hashed) ∨
    (∃ p s2, fp txt = some p ∧ stmtConsume fp s = .ok ⟨l, c, p⟩ s2 ∧
      remaining s2 = rest ∧ s2.hashed = s.hashed ++ [(l, c, txt)]) := by
  obtain ⟨cache, it, hashed⟩ := s
  cases cache with
  | nil =>
    simp only [remaining, List.nil_append] at h
    subst h
    cases hfp : fp txt with
    | none =>
      left
      refine ⟨rfl, ⟨[(l, c, txt)], rest, hashed⟩, ?_, rfl, rfl⟩
      unfold stmtConsume peek
      simp [hfp]
    | some p =>
      right
      refine ⟨p, ⟨[], rest, hashed ++ [(l, c, txt)]⟩, rfl, ?_, rfl, rfl⟩
      unfold stmtConsume peek
      simp [hfp, hnext]
  | cons x xs =>
    simp only [remaining, List.cons_append, List.cons.injEq] at h
    obtain ⟨hx, hr⟩ := h
    subst hx
    cases hfp : fp txt with
    | none =>
      left
      refine ⟨rfl, ⟨(l, c, txt) :: xs, it, hashed⟩, ?_, ?_, rfl⟩
      · unfold stmtConsume peek
        simp [hfp]
      · simp [remaining, hr]
    | some p =>
      right
      refine ⟨p, ⟨xs, it, hashed ++ [(l, c, txt)]⟩, rfl, ?_, ?_, rfl⟩
      · unfold stmtConsume peek
        simp [hfp, hnext]
      · simp [remaining, hr]

theorem stmtConsume_notMine {fp : StmtShape} {s s1 : HashIt}
    (h : stmtConsume fp s = .notMine s1) : Consumed s s1 [] := by
  cases hr : remaining s with
  | nil => rw [stmtConsume_nil hr] at h; cases h
  | cons t rest =>
    obtain ⟨l, c, txt⟩ := t
    rcases stmtConsume_cons fp hr with ⟨_, s1x, he, hrem, hh⟩ | ⟨p, s2, _, he, _, _⟩
    · rw [he] at h
      cases h
      exact ⟨by rw [hr, hrem, List.nil_append], by rw [hh, List.append_nil]⟩
    · rw [he] at h; cases h

theorem stmtConsume_ok {fp : StmtShape} {s s1 : HashIt} {e : Elem}
    (h : stmtConsume fp s = .ok e s1) :
    ∃ t rest, remaining s = t :: rest ∧ Consumed s s1 [t] := by
  cases hr : remaining s with
  | nil => rw [stmtConsume_nil hr] at h; cases h
  | cons t rest =>
    obtain ⟨l, c, txt⟩ := t
    rcases stmtConsume_cons fp hr with ⟨_, s1x, he, _, _⟩ | ⟨p, s2, _, he, hrem, hh⟩
    · rw [he] at h; cases h
    · rw [he] at h
      cases h
      refine ⟨(l, c, txt), rest, rfl, ?_, hh⟩
      rw [hr, hrem]
      rfl

theorem stmtConsume_stopIter {fp : StmtShape} {s s1 : HashIt}
    (h : stmtConsume fp s = .stopIter s1) : s1 = s ∧ remaining s = [] := by
  cases hr : remaining s with
  | nil =>
    rw [stmtConsume_nil hr] at h
    cases h
    exact ⟨rfl, rfl⟩
  | cons t rest =>
    obtain ⟨l, c, txt⟩ := t
    rcases stmtConsume_cons fp hr with ⟨_, s1x, he, _, _⟩ | ⟨p, s2, _, he, _, _⟩ <;>
      rw [he] at h <;> exact absurd h (by intro hx; cases hx)

theorem stmtConsume_ne_fuelOut {fp : StmtShape} {s : HashIt} :
    stmtConsume fp s ≠ .fuelOut := by
  cases hr : remaining s with
  | nil => rw [stmtConsume_nil hr]; intro h; cases h
  | cons t rest =>
    obtain ⟨l, c, txt⟩ := t
    rcases stmtConsume_cons fp hr with ⟨_, s1x, he, _, _⟩ | ⟨p, s2, _, he, _, _⟩ <;>
      rw [he] <;> intro h <;> cases h

theorem tryStatements_notMine {shapes : List StmtShape} {s s1 : HashIt}
    (h : tryStatements shapes s = .notMine s1) : Consumed s s1 [] := by
  induction shapes generalizing s with
  | nil =>
    unfold tryStatements at h
    cases h
    exact consumed_refl _
  | cons fp rest ih =>
    unfold tryStatements at h
    cases hs : stmtConsume fp s with
    | notMine sm =>
      rw [hs] at h
      have h1 := ih h
      have h0 := stmtConsume_notMine hs
      simpa using consumed_trans h0 h1
    | stopIter sm => rw [hs] at h; cases h
    | ok e sm => rw [hs] at h; cases h
    | fuelOut => exact absurd hs stmtConsume_ne_fuelOut

theorem tryStatements_ok {shapes : List StmtShape} {s s1 : HashIt} {e : Elem}
    (h : tryStatements shapes s = .ok e s1) :
    ∃ t rest, remaining s = t :: rest ∧ Consumed s s1 [t] := by
  induction shapes generalizing s with
  | nil => unfold tryStatements at h; cases h
  | cons fp rest ih =>
    unfold tryStatements at h
    cases hs : stmtConsume fp s with
    | notMine sm =>
      rw [hs] at h
      obtain ⟨t, r0, hr0, hc0⟩ := ih h
      have h0 := stmtConsume_notMine hs
      have htr := consumed_trans h0 hc0
      refine ⟨t, r0, ?_, by simpa using htr⟩
      rw [h0.1, List.nil_append, hr0]
    | stopIter sm => rw [hs] at h; cases h
    | ok e0 sm =>
      rw [hs] at h
      cases h
      exact stmtConsume_ok hs
    | fuelOut => exact absurd hs stmtConsume_ne_fuelOut

theorem tryStatements_stopIter {shapes : List StmtShape} {s s1 : HashIt}
    (h : tryStatements shapes s = .stopIter s1) : s1 = s ∧ remaining s = [] := by
  induction shapes generalizing s with
  | nil => unfold tryStatements at h; cases h
  | cons fp rest ih =>
    unfold tryStatements at h
    cases hs : stmtConsume fp s with
    | notMine sm =>
      rw [hs] at h
      obtain ⟨he, hr⟩ := ih h
      have h0 := stmtConsume_notMine hs
      have hr0 : remaining s = [] := by rw [h0.1, List.nil_append, hr]
      rw [stmtConsume_nil hr0] at hs
      cases hs
    | stopIter sm =>
      rw [hs] at h
      cases h
      exact stmtConsume_stopIter hs
    | ok e0 sm => rw [hs] at h; cases h
    | fuelOut => exact absurd hs stmtConsume_ne_fuelOut

theorem tryStatements_ne_fuelOut {shapes : List StmtShape} {s : HashIt} :
    tryStatements shapes s ≠ .fuelOut := by
  induction shapes generalizing s with
  | nil => unfold tryStatements; intro h; cases h
  | cons fp rest ih =>
    unfold tryStatements
    cases hs : stmtConsume fp s with
    | notMine sm => exact ih
    | stopIter sm => intro h; cases h
    | ok e0 sm => intro h; cases h
    | fuelOut => exact absurd hs stmtConsume_ne_fuelOut

theorem tryStatements_exhausted {shapes : List StmtShape} {s : HashIt}
    (h : remaining s = []) (hne : shapes ≠ []) : tryStatements shapes s = .stopIter s := by
  cases shapes with
  | nil => exact absurd rfl hne
  | cons fp rest =>
    unfold tryStatements
    rw [stmtConsume_nil h]

theorem tryStatements_claimsNone {shapes : List StmtShape} {s : HashIt} {l c : Int}
    {txt : List Char} {rest : List Triple} (h : remaining s = (l, c, txt) :: rest)
    (hn : ∀ fp ∈ shapes, fp txt = none) :
    ∃ s1, tryStatements shapes s = .notMine s1 ∧ remaining s1 = remaining s ∧
      s1.hashed = s.hashed := by
  induction shapes generalizing s with
  | nil => exact ⟨s, rfl, rfl, rfl⟩
  | cons fp rest0 ih =>
    rcases stmtConsume_cons fp h with ⟨_, s1, he, hrem, hh⟩ | ⟨p, s2, hp, _, _, _⟩
    · unfold tryStatements
      rw [he]
      obtain ⟨sf, hef, hrf, hhf⟩ := ih (s := s1) (by rw [hrem])
        (fun g hg => hn g (List.mem_cons_of_mem _ hg))
      exact ⟨sf, hef, by rw [hrf, hrem, h], by rw [hhf, hh]⟩
    · rw [hn fp (List.mem_cons_self fp rest0)] at hp
      cases hp

theorem engine_master : ∀ fuel : Nat,
    (∀ bc s, sizeCL bc + 1 + (remaining s).length * (sizeCL bc + 2) ≤ fuel →
      (∃ b s1 pre, engine fuel (.bodyDispatch bc) s = .ok b s1 ∧ Consumed s s1 pre ∧ pre ≠ []) ∨
      (∃ s1, engine fuel (.bodyDispatch bc) s = .stopIter s1 ∧ Consumed s s1 [] ∧
        remaining s = [])) ∧
    (∀ op bd cl s, (remaining s).length * (sizeCL bd + 2) + 1 ≤ fuel →
      (∃ s1, engine fuel (.blockConsume op bd cl) s = .notMine s1 ∧ Consumed s s1 []) ∨
      (∃ s1, engine fuel (.blockConsume op bd cl) s = .stopIter s1 ∧ Consumed s s1 [] ∧
        remaining s = []) ∨
      (∃ b s1 pre, engine fuel (.blockConsume op bd cl) s = .ok b s1 ∧ Consumed s s1 pre ∧
        pre ≠ [])) ∧
    (∀ bd cl os opEl acc s, ((remaining s).length + 1) * (sizeCL bd + 2) ≤ fuel →
      ∃ bodyB clEl s1 pre, engine fuel (.loopStep opEl acc bd cl os) s
          = .ok (.block opEl bodyB clEl) s1 ∧ Consumed s s1 pre ∧
        (cl = [] → clEl = os ∧ remaining s1 = [])) := by
  intro fuel
  induction fuel using Nat.strong_induction_on with
  | _ fuel IH =>
    cases fuel with
    | zero =>
      refine ⟨fun bc s h => absurd h (by omega), fun op bd cl s h => absurd h (by omega),
        fun bd cl os opEl acc s h => absurd h ?_⟩
      have h2 : 1 * 2 ≤ ((remaining s).length + 1) * (sizeCL bd + 2) :=
        Nat.mul_le_mul (by omega) (by omega)
      omega
    | succ f =>
      have IHf := IH f (Nat.lt_succ_self f)
      refine ⟨?_, ?_, ?_⟩
      · -- bodyDispatch
        intro bc s h
        cases bc with
        | nil =>
          cases hr : remaining s with
          | nil =>
            right
            exact ⟨s, by simp only [engine, hnext_nil hr], consumed_refl s, rfl⟩
          | cons t r0 =>
            obtain ⟨l, c, txt⟩ := t
            obtain ⟨s2, hn, hrem, hh, _⟩ := hnext_cons hr
            left
            refine ⟨.leaf ⟨l, c, .unknown txt⟩, s2, [(l, c, txt)], ?_, ⟨?_, hh⟩, by simp⟩
            · simp only [engine, hn]
            · rw [hr, hrem]; rfl
        | cons c0 rest =>
          cases c0 with
          | stmt fp =>
            cases hr : remaining s with
            | nil =>
              right
              refine ⟨s, ?_, consumed_refl s, rfl⟩
              simp only [engine, stmtConsume_nil hr]
            | cons t r0 =>
              obtain ⟨l, c, txt⟩ := t
              rcases stmtConsume_cons fp hr with ⟨hfp, s1, he, hrem, hh⟩ |
                ⟨p, s2, hp, he, hrem, hh⟩
              · have hlen1 : (remaining s1).length = (remaining s).length := by
                  rw [hrem, hr]
                have hbound : sizeCL rest + 1 + (remaining s1).length * (sizeCL rest + 2) ≤ f := by
                  rw [hlen1]
                  simp only [sizeCL, sizeC] at h
                  have hm : (remaining s).length * (sizeCL rest + 2) ≤
                      (remaining s).length * (1 + 1 + sizeCL rest + 2) :=
                    Nat.mul_le_mul_left _ (by omega)
                  omega
                rcases (IHf.1 rest s1 hbound) with ⟨b, s2, pre2, hE2, hc2, hpre⟩ |
                  ⟨s2, hE2, hc2, hre⟩
                · left
                  refine ⟨b, s2, pre2, ?_, ?_, hpre⟩
                  · simp only [engine, he, hE2]
                  · have h0 : Consumed s s1 [] := ⟨by rw [hr, hrem]; rfl, by rw [hh]; simp⟩
                    simpa using consumed_trans h0 hc2
                · rw [hrem] at hre
                  cases hre
              · left
                refine ⟨.leaf ⟨l, c, p⟩, s2, [(l, c, txt)], ?_, ⟨?_, hh⟩, by simp⟩
                · simp only [engine, he]
                · rw [hr, hrem]; rfl
          | blk op bd cl =>
            have hbound : (remaining s).length * (sizeCL bd + 2) + 1 ≤ f := by
              simp only [sizeCL, sizeC] at h
              have hm : (remaining s).length * (sizeCL bd + 2) ≤
                  (remaining s).length * (1 + (1 + sizeCL bd) + sizeCL rest + 2) :=
                Nat.mul_le_mul_left _ (by omega)
              omega
            rcases (IHf.2.1 op bd cl s hbound) with ⟨s1, hE1, hc1⟩ |
              ⟨s1, hE1, hc1, hre⟩ | ⟨b, s1, pre1, hE1, hc1, hpre⟩
            · have hlen1 : (remaining s1).length = (remaining s).length := by
                have := hc1.1
                rw [List.nil_append] at this
                rw [this]
              have hbound2 : sizeCL rest + 1 + (remaining s1).length * (sizeCL rest + 2) ≤ f := by
                simp only [sizeCL, sizeC] at h
                have hm : (remaining s1).length * (sizeCL rest + 2) ≤
                    (remaining s).length * (1 + (1 + sizeCL bd) + sizeCL rest + 2) := by
                  rw [hlen1]
                  exact Nat.mul_le_mul_left _ (by omega)
                omega
              rcases (IHf.1 rest s1 hbound2) with ⟨b, s2, pre2, hE2, hc2, hpre⟩ |
                ⟨s2, hE2, hc2, hre2⟩
              · left
                refine ⟨b, s2, pre2, ?_, ?_, hpre⟩
                · simp only [engine, hE1, hE2]
                · simpa using consumed_trans hc1 hc2
              · right
                refine ⟨s2, ?_, ?_, ?_⟩
                · simp only [engine, hE1, hE2]
                · simpa using consumed_trans hc1 hc2
                · rw [hc1.1, List.nil_append, hre2]
            · right
              refine ⟨s1, ?_, hc1, hre⟩
              simp only [engine, hE1]
            · left
              refine ⟨b, s1, pre1, ?_, hc1, hpre⟩
              simp only [engine, hE1]
      · -- blockConsume
        intro op bd cl s h
        cases hT : tryStatements op s with
        | notMine s1 =>
          exact Or.inl ⟨s1, by simp only [engine, hT], tryStatements_notMine hT⟩
        | stopIter s1 =>
          obtain ⟨hs1, hre⟩ := tryStatements_stopIter hT
          subst hs1
          exact Or.inr (Or.inl ⟨s1, by simp only [engine, hT], consumed_refl s1, hre⟩)
        | fuelOut => exact absurd hT tryStatements_ne_fuelOut
        | ok opEl s1 =>
          obtain ⟨t, r0, hr0, hc1⟩ := tryStatements_ok hT
          have hlen : (remaining s1).length + 1 = (remaining s).length := by
            rw [hc1.1]
            simp
          have hbound : ((remaining s1).length + 1) * (sizeCL bd + 2) ≤ f := by
            rw [hlen]
            omega
          obtain ⟨bodyB, clEl, s2, pre2, hE2, hc2, _⟩ :=
            IHf.2.2 bd cl ⟨-1, -1, .unexpectedEOF⟩ opEl [] s1 hbound
          refine Or.inr (Or.inr ⟨.block opEl bodyB clEl, s2, t :: pre2, ?_, ?_, by simp⟩)
          · simp only [engine, hT, hE2]
          · simpa using consumed_trans hc1 hc2
      · -- loopStep
        intro bd cl os opEl acc s h
        cases hT : tryStatements cl s with
        | ok clEl s1 =>
          obtain ⟨t, r0, hr0, hc0⟩ := tryStatements_ok hT
          refine ⟨toBody acc.reverse, clEl, s1, [t], ?_, hc0, ?_⟩
          · simp only [engine, hT]
          · intro hcl
            subst hcl
            simp only [tryStatements] at hT
            cases hT
        | stopIter s1 =>
          obtain ⟨hs1, hre⟩ := tryStatements_stopIter hT
          subst hs1
          refine ⟨toBody acc.reverse, os, s1, [], ?_, consumed_refl s1, fun _ => ⟨rfl, hre⟩⟩
          simp only [engine, hT]
        | fuelOut => exact absurd hT tryStatements_ne_fuelOut
        | notMine s1 =>
          have hc1 : Consumed s s1 [] := tryStatements_notMine hT
          have hlen1 : (remaining s1).length = (remaining s).length := by
            have := hc1.1
            rw [List.nil_append] at this
            rw [this]
          have hbound : sizeCL bd + 1 + (remaining s1).length * (sizeCL bd + 2) ≤ f := by
            have hexp : ((remaining s).length + 1) * (sizeCL bd + 2) =
                (remaining s).length * (sizeCL bd + 2) + (sizeCL bd + 2) := by ring
            rw [hlen1]
            omega
          rcases (IHf.1 bd s1 hbound) with ⟨b, s2, pre2, hE2, hc2, hpre2⟩ |
            ⟨s2, hE2, hc2, hre⟩
          · have hlen2 : (remaining s2).length + 1 ≤ (remaining s1).length := by
              rw [hc2.1]
              cases pre2 with
              | nil => exact absurd rfl hpre2
              | cons q qs =>
                simp only [List.cons_append, List.length_cons, List.length_append]
                omega
            have hbound2 : ((remaining s2).length + 1) * (sizeCL bd + 2) ≤ f := by
              have hm : ((remaining s2).length + 1) * (sizeCL bd + 2) ≤
                  (remaining s1).length * (sizeCL bd + 2) :=
                Nat.mul_le_mul_right _ hlen2
              have hexp : ((remaining s).length + 1) * (sizeCL bd + 2) =
                  (remaining s).length * (sizeCL bd + 2) + (sizeCL bd + 2) := by ring
              rw [hlen1] at hm
              omega
            obtain ⟨bodyB, clEl, s3, pre3, hE3, hc3, hclose⟩ :=
              IHf.2.2 bd cl os opEl (b :: acc) s2 hbound2
            refine ⟨bodyB, clEl, s3, pre2 ++ pre3, ?_, ?_, hclose⟩
            · simp only [engine, hT, hE2, hE3]
            · simpa using consumed_trans hc1 (consumed_trans hc2 hc3)
          · refine ⟨toBody acc.reverse, os, s2, [], ?_, ?_, ?_⟩
            · simp only [engine, hT, hE2]
            · simpa using consumed_trans hc1 hc2
            · intro hcl
              refine ⟨rfl, ?_⟩
              have h2 := hc2.1
              rw [hre, List.nil_append] at h2
              exact h2.symm

theorem rootConsume_spec (bd : BClassL) (s : HashIt) :
    ∃ bodyB s1, rootConsume bd s = (.block ⟨0, 0, .bos⟩ bodyB ⟨-1, -1, .eos⟩, s1) ∧
      remaining s1 = [] ∧ s1.hashed = s.hashed ++ remaining s := by
  obtain ⟨bodyB, clEl, s1, pre, hE, hc, hcl⟩ :=
    (engine_master (rootFuel bd s)).2.2 bd [] ⟨-1, -1, .eos⟩ ⟨0, 0, .bos⟩ [] s (le_refl _)
  obtain ⟨hclEl, hrem⟩ := hcl rfl
  subst hclEl
  have hpre : pre = remaining s := by
    have h1 := hc.1
    rw [hrem, List.append_nil] at h1
    exact h1.symm
  refine ⟨bodyB, s1, ?_, hrem, by rw [hc.2, hpre]⟩
  unfold rootConsume
  rw [hE]

/-- C4: for every input statement stream and every grammar,
`RootBlock.consume` returns a block whose opening is the synthetic `BOS`
stamped at `(0, 0)` — the same value for every iterator state, produced
without consulting the iterator — and whose closing is the synthetic
`EOS` at the `(-1, -1)` sentinel, produced exactly when the iterator
exhausts (the final state has nothing remaining). Since the grammar
`bd` is universally quantified, this holds in particular when a nested
block is still open at exhaustion: that block carries `UnexpectedEOF`
while the root still closes with `EOS`. -/
theorem c4_root_block_markers (bd : BClassL) (s : HashIt) :
    openingE (rootConsume bd s).1 = ⟨0, 0, .bos⟩ ∧
    closingE (rootConsume bd s).1 = ⟨-1, -1, .eos⟩ ∧
    remaining (rootConsume bd s).2 = [] := by
  obtain ⟨bodyB, s1, hE, hrem, _⟩ := rootConsume_spec bd s
  rw [hE]
  exact ⟨rfl, rfl, hrem⟩

theorem dropWhile_append_all {p : Char → Bool} {xs ys : List Char}
    (h : ∀ c ∈ xs, p c = true) : (xs ++ ys).dropWhile p = ys.dropWhile p := by
  induction xs with
  | nil => simp
  | cons a t ih =>
    have ha := h a (List.mem_cons_self a t)
    simp only [List.cons_append, List.dropWhile_cons, ha, if_true]
    exact ih (fun c hc => h c (List.mem_cons_of_mem _ hc))

theorem strip_append_ws {a w : List Char} (hw : ∀ c ∈ w, c.isWhitespace = true) :
    strip (a ++ w) = strip a := by
  unfold strip rstrip
  rw [List.reverse_append, dropWhile_append_all (fun c hc => hw c (List.mem_reverse.mp hc))]

theorem fromLinesAux_trailing_ws :
    ∀ (n : Nat) (lines1 lines2 : List (List Char)),
      List.Forall₂ (fun a b => ∃ w, b = a ++ w ∧ ∀ c ∈ w, c.isWhitespace = true)
        lines1 lines2 →
      fromLinesAux true [] n lines2 = fromLinesAux true [] n lines1 := by
  intro n lines1 lines2 h
  induction h generalizing n with
  | nil => rfl
  | cons hab htail ih =>
    obtain ⟨w, rfl, hw⟩ := hab
    unfold fromLinesAux
    rw [ih (n + 1)]
    congr 1
    simp only [from_line, List.isEmpty_nil, if_true, List.map_cons, List.map_nil]
    rw [strip_append_ws hw]

/-- C2 amended: the content hash is exactly the serialized stream of the
`(lineno, colno, statement)` triples produced by the splitter — every
parse consumes that whole stream and hashes precisely it, for every
grammar. Consequently two sources whose statements differ only in
trailing whitespace inside a line (which stripping removes without
shifting any line or column number) hash equally, and any two sources
whose consumed triple streams differ (in particular in any accepted
statement text) hash differently. Whitespace that shifts positions —
for example a whitespace-only line, which is filtered but still
advances the line counter — does change the hash (see the
counterexample). -/
theorem c2_amended_hash_is_consumed_stream :
    (∀ (bd : BClassL) (st : Bool) (dl : DelimConf) (lines : List (List Char))
        (origin : SourceId),
      (parseSource bd st dl lines origin).content_hash = from_lines st dl lines) ∧
    (∀ (lines1 lines2 : List (List Char)),
      List.Forall₂ (fun a b => ∃ w, b = a ++ w ∧ ∀ c ∈ w, c.isWhitespace = true)
        lines1 lines2 →
      ∀ (bd : BClassL) (origin1 origin2 : SourceId),
        (parseSource bd true [] lines2 origin2).content_hash
          = (parseSource bd true [] lines1 origin1).content_hash) := by
  have hmain : ∀ (bd : BClassL) (st : Bool) (dl : DelimConf) (lines : List (List Char))
      (origin : SourceId),
      (parseSource bd st dl lines origin).content_hash = from_lines st dl lines := by
    intro bd st dl lines origin
    unfold parseSource
    obtain ⟨bodyB, s1, hE, _, hh⟩ :=
      rootConsume_spec bd ⟨[], from_lines st dl lines, []⟩
    rw [hE]
    simpa [remaining] using hh
  refine ⟨hmain, fun lines1 lines2 h bd origin1 origin2 => ?_⟩
  rw [hmain, hmain]
  exact fromLinesAux_trailing_ws 0 lines1 lines2 h

theorem c2_amended_witness :
    (parseSource .nil true [] [['x', ' ']] []).content_hash
      = (parseSource .nil true [] [['x']] []).content_hash :=
  c2_amended_hash_is_consumed_stream.2 [['x']] [['x', ' ']]
    (List.Forall₂.cons ⟨[' '], rfl, by decide⟩ List.Forall₂.nil) .nil [] []

/-- C2 counterexample: the sources `[" ", "x"]` and `["x"]` differ only
in a fully-stripped whitespace line, yet their content hashes differ:
the whitespace-only line is filtered out but still shifts the line
number of the following statement, so the consumed triples — and hence
the digests — differ. This refutes the claim that any two sources
differing solely in fully-stripped whitespace hash equally. -/
theorem c2_counterexample :
    (parseSource .nil true [] [" ".toList, "x".toList] []).content_hash
      ≠ (parseSource .nil true [] ["x".toList] []).content_hash := by
  decide

/-- C5: on every iteration of the consume loop after a successful
opening, the closing classes are attempted before any body class: if
any closing class claims the next triple, the block closes there with
that value, regardless of what the body classes (universally
quantified, so possibly also claiming it) would do. And whenever
neither a closing class nor any body class claims the next triple, the
body dispatch consumes exactly that one triple and produces an
`UnknownStatement` carrying its text, stamped with its line and
column. -/
theorem c5_closing_first_and_unknown_fallback :
    (∀ (fuel : Nat) (bd : BClassL) (cl : List StmtShape) (os opEl : Elem)
        (acc : List BElem) (s s1 : HashIt) (clEl : Elem),
      tryStatements cl s = .ok clEl s1 →
      engine (fuel + 1) (.loopStep opEl acc bd cl os) s
        = .ok (.block opEl (toBody acc.reverse) clEl) s1) ∧
    (∀ (fuel : Nat) (bc : BClassL) (s : HashIt) (l c : Int) (txt : List Char)
        (rest : List Triple),
      remaining s = (l, c, txt) :: rest → claimsNone bc txt → sizeCL bc + 1 ≤ fuel →
      ∃ s1, engine fuel (.bodyDispatch bc) s = .ok (.leaf ⟨l, c, .unknown txt⟩) s1 ∧
        remaining s1 = rest) := by
  constructor
  · intro fuel bd cl os opEl acc s s1 clEl hT
    simp only [engine, hT]
  · intro fuel bc s l c txt rest h hcn hfuel
    induction fuel generalizing bc s with
    | zero => exact absurd hfuel (by omega)
    | succ f ih =>
      cases bc with
      | nil =>
        obtain ⟨s2, hn, hrem, _, _⟩ := hnext_cons h
        exact ⟨s2, by simp only [engine, hn], hrem⟩
      | cons c0 rest0 =>
        cases c0 with
        | stmt fp =>
          have hfp : fp txt = none := hcn.1
          rcases stmtConsume_cons fp h with ⟨_, s1, he, hrem, _⟩ |
            ⟨p, s2, hp, _, _, _⟩
          · have hfuel2 : sizeCL rest0 + 1 ≤ f := by
              simp only [sizeCL, sizeC] at hfuel
              omega
            obtain ⟨sf, hEf, hremf⟩ := ih rest0 s1 hrem hcn.2 hfuel2
            exact ⟨sf, by simp only [engine, he, hEf], hremf⟩
          · rw [hfp] at hp
            cases hp
        | blk op bd cl =>
          obtain ⟨s1, hT, hrs, _⟩ := tryStatements_claimsNone h hcn.1
          cases f with
          | zero =>
            simp only [sizeCL, sizeC] at hfuel
            omega
          | succ g =>
            have hfuel2 : sizeCL rest0 + 1 ≤ g + 1 := by
              simp only [sizeCL, sizeC] at hfuel
              omega
            obtain ⟨sf, hEf, hremf⟩ := ih rest0 s1 (by rw [hrs, h]) hcn.2 hfuel2
            refine ⟨sf, ?_, hremf⟩
            have hblk : engine (g + 1) (.blockConsume op bd cl) s = .notMine s1 := by
              simp only [engine, hT]
            have hstep : engine (g + 1 + 1)
                (.bodyDispatch (.cons (.blk op bd cl) rest0)) s
                = match engine (g + 1) (.blockConsume op bd cl) s with
                  | .notMine s1 => engine (g + 1) (.bodyDispatch rest0) s1
                  | r => r := rfl
            rw [hstep, hblk]
            exact hEf

theorem c5_witness :
    engine 1
        (.loopStep ⟨0, 0, .bos⟩ []
          (.cons (.stmt (fun t => if t = ['y'] then some (.stmt 0 t) else none)) .nil)
          [fun t => if t = ['y'] then some (.stmt 1 t) else none] ⟨-1, -1, .eos⟩)
        ⟨[], [(0, 0, ['y'])], []⟩
      = .ok (.block ⟨0, 0, .bos⟩ .nil ⟨0, 0, .stmt 1 ['y']⟩) ⟨[], [], [(0, 0, ['y'])]⟩ ∧
    (∃ s1, engine 3
        (.bodyDispatch (.cons (.stmt (fun t => if t = ['y'] then some (.stmt 0 t) else none))
          .nil))
        ⟨[], [(0, 0, ['z'])], []⟩
      = .ok (.leaf ⟨0, 0, .unknown ['z']⟩) s1 ∧ remaining s1 = []) := by
  constructor
  · exact c5_closing_first_and_unknown_fallback.1 0 _ _ _ _ _ _ _ _ rfl
  · exact c5_closing_first_and_unknown_fallback.2 3 _ _ 0 0 ['z'] [] rfl
      ⟨by decide, trivial⟩ (by decide)

/-- C7: for every iterator state whose lookahead buffer holds at most
one element, `peek` is idempotent (a second peek returns the same
triple and the same state), keeps the buffer within one element, never
updates the hash accumulator and leaves the remaining stream unchanged;
after a peek, `next` returns exactly the peeked triple, it is exactly
that triple that is appended to the hash accumulator, and every `next`
appends exactly its returned element — so the digest covers exactly the
consumed elements in consumption order. -/
theorem c7_peek_hash_contract :
    ∀ s : HashIt, s.cache.length ≤ 1 →
      (∀ x s1, peek s = some (x, s1) →
        peek s1 = some (x, s1) ∧ s1.cache.length ≤ 1 ∧ s1.hashed = s.hashed ∧
        remaining s1 = remaining s ∧
        ∃ s2, hnext s1 = some (x, s2) ∧ s2.hashed = s.hashed ++ [x] ∧
          remaining s1 = x :: remaining s2) ∧
      (∀ x s2, hnext s = some (x, s2) →
        s2.hashed = s.hashed ++ [x] ∧ s2.cache.length ≤ 1) := by
  intro s hc
  obtain ⟨cache, it, hashed⟩ := s
  constructor
  · intro x s1 hpk
    cases cache with
    | nil =>
      cases it with
      | nil => cases hpk
      | cons y ys =>
        simp only [peek, Option.some.injEq, Prod.mk.injEq] at hpk
        obtain ⟨rfl, rfl⟩ := hpk
        exact ⟨rfl, by simp, rfl, by simp [remaining], ⟨[], ys, hashed ++ [y]⟩, rfl, rfl,
          by simp [remaining]⟩
    | cons z zs =>
      simp only [peek, Option.some.injEq, Prod.mk.injEq] at hpk
      obtain ⟨rfl, rfl⟩ := hpk
      exact ⟨rfl, hc, rfl, rfl, ⟨zs, it, hashed ++ [z]⟩, rfl, rfl, by simp [remaining]⟩
  · intro x s2 hn
    cases cache with
    | nil =>
      cases it with
      | nil => cases hn
      | cons y ys =>
        simp only [hnext, Option.some.injEq, Prod.mk.injEq] at hn
        obtain ⟨rfl, rfl⟩ := hn
        exact ⟨rfl, by simp⟩
    | cons z zs =>
      simp only [hnext, Option.some.injEq, Prod.mk.injEq] at hn
      obtain ⟨rfl, rfl⟩ := hn
      simp only [List.length_cons] at hc
      exact ⟨rfl, by simp; omega⟩

theorem c7_witness :
    peek (⟨[(0, 0, ['x'])], [], []⟩ : HashIt)
        = some ((0, 0, ['x']), ⟨[(0, 0, ['x'])], [], []⟩) ∧
    (∃ s2, hnext (⟨[(0, 0, ['x'])], [], []⟩ : HashIt) = some ((0, 0, ['x']), s2) ∧
      s2.hashed = [(0, 0, ['x'])]) := by
  have h := (c7_peek_hash_contract ⟨[], [(0, 0, ['x'])], []⟩ (by decide)).1 (0, 0, ['x'])
    ⟨[(0, 0, ['x'])], [], []⟩ rfl
  obtain ⟨h1, _, _, _, s2, h2, h3, _⟩ := h
  exact ⟨h1, s2, h2, by simpa using h3⟩

/-- C8: for every iterator state with at least one remaining triple and
every statement shape, `ParsedStatement.consume` returns the not-mine
result exactly when the shape's parse function does, and then the
iterator position is unchanged; when the parse function accepts (or
rejects with an error payload), exactly one triple is consumed and the
returned element's `(lineno, colno)` are the triple's line and
column. -/
theorem c8_stmt_consume_frame :
    ∀ (fp : StmtShape) (s : HashIt) (l c : Int) (txt : List Char) (rest : List Triple),
      remaining s = (l, c, txt) :: rest →
      ((∃ s1, stmtConsume fp s = .notMine s1 ∧ remaining s1 = remaining s) ↔
        fp txt = none) ∧
      (∀ p, fp txt = some p →
        ∃ s2, stmtConsume fp s = .ok ⟨l, c, p⟩ s2 ∧ remaining s2 = rest) := by
  intro fp s l c txt rest h
  constructor
  · constructor
    · rintro ⟨s1, he, _⟩
      rcases stmtConsume_cons fp h with ⟨hfp, _, _, _, _⟩ | ⟨p, s2, hp, he2, _, _⟩
      · exact hfp
      · rw [he2] at he
        cases he
    · intro hfp
      rcases stmtConsume_cons fp h with ⟨_, s1, he, hrem, _⟩ | ⟨p, s2, hp, _, _, _⟩
      · exact ⟨s1, he, by rw [hrem, h]⟩
      · rw [hfp] at hp
        cases hp
  · intro p hp
    rcases stmtConsume_cons fp h with ⟨hfp, _, _, _, _⟩ | ⟨q, s2, hq, he, hrem, _⟩
    · rw [hfp] at hp
      cases hp
    · rw [hq] at hp
      injection hp with hqp
      subst hqp
      exact ⟨s2, he, hrem⟩

theorem c8_witness :
    ∃ s2, stmtConsume (fun t => if t = ['x'] then some (.stmt 0 t) else none)
        (⟨[], [(0, 0, ['x'])], []⟩ : HashIt) = .ok ⟨0, 0, .stmt 0 ['x']⟩ s2 ∧
      remaining s2 = [] :=
  (c8_stmt_consume_frame _ _ 0 0 ['x'] [] (by decide)).2 _ (by decide)

/-- C10: on an already-exhausted iterator, `ParsedStatement.consume`
raises `StopIteration` (from the unguarded peek) instead of returning
the not-mine result, and `Block.consume` of any block with at least one
opening class does the same (the exception propagates from the opening
attempt, which sits outside the loop's handler); the exhaustion is
converted into a synthetic closing value only inside an enclosing
block's consume loop — whose opening has by then already matched —
where it commits the `on_stop_iteration` value as the closing. -/
theorem c10_exhausted_raises :
    ∀ (fp : StmtShape) (s : HashIt), remaining s = [] →
      stmtConsume fp s = .stopIter s ∧
      (∀ (fuel : Nat) (f1 : StmtShape) (ops : List StmtShape) (bd : BClassL)
          (cl : List StmtShape),
        engine (fuel + 1) (.blockConsume (f1 :: ops) bd cl) s = .stopIter s) ∧
      (∀ (fuel : Nat) (opEl : Elem) (acc : List BElem) (bd : BClassL)
          (cl : List StmtShape) (os : Elem), cl ≠ [] →
        engine (fuel + 1) (.loopStep opEl acc bd cl os) s
          = .ok (.block opEl (toBody acc.reverse) os) s) := by
  intro fp s hr
  refine ⟨stmtConsume_nil hr, ?_, ?_⟩
  · intro fuel f1 ops bd cl
    have hT : tryStatements (f1 :: ops) s = .stopIter s :=
      tryStatements_exhausted hr (by simp)
    simp only [engine, hT]
  · intro fuel opEl acc bd cl os hcl
    have hT : tryStatements cl s = .stopIter s := tryStatements_exhausted hr hcl
    simp only [engine, hT]

theorem c10_witness :
    stmtConsume (fun _ => none) (⟨[], [], []⟩ : HashIt) = .stopIter ⟨[], [], []⟩ ∧
    engine 3 (.blockConsume [fun _ => none] .nil []) ⟨[], [], []⟩
      = .stopIter ⟨[], [], []⟩ ∧
    engine 3 (.loopStep ⟨0, 0, .bos⟩ [] .nil [fun _ => none] ⟨-1, -1, .unexpectedEOF⟩)
        ⟨[], [], []⟩
      = .ok (.block ⟨0, 0, .bos⟩ (toBody ([] : List BElem).reverse) ⟨-1, -1, .unexpectedEOF⟩)
        ⟨[], [], []⟩ := by
  have h := c10_exhausted_raises (fun _ => none) ⟨[], [], []⟩ rfl
  exact ⟨h.1, h.2.1 2 _ [] .nil [], h.2.2 2 _ [] .nil _ _ (by simp)⟩

theorem lookupDelim_no_terminate {delims : DelimConf} {d : List Char}
    (h : ∀ e ∈ delims, e.2.2 = false) : (lookupDelim delims d).2 = false := by
  unfold lookupDelim
  cases hf : delims.find? (fun e => e.1 = d) with
  | none => rfl
  | some e =>
    simp only [Option.map_some', Option.getD_some]
    exact h e (List.mem_of_find?_eq_some hf)

theorem isplitModeGo_nonempty {delims : DelimConf} {line : List Char}
    (hterm : ∀ e ∈ delims, e.2.2 = false) :
    ∀ (entries : List (Nat × List Char × Option (List Char))) (dragged : List Char)
      (p : Int × List Char),
      p ∈ isplitModeGo delims line entries dragged false → p.2 ≠ [] := by
  intro entries
  induction entries with
  | nil =>
    intro dragged p hp
    simp [isplitModeGo] at hp
  | cons entry rest ih =>
    obtain ⟨col, part, dlm⟩ := entry
    intro dragged p hp
    cases dlm with
    | none =>
      rw [show isplitModeGo delims line ((col, part, none) :: rest) dragged false
          = (if part = [] then []
             else [((col : Int) - dragged.length, dragged ++ part)]) ++
            isplitModeGo delims line rest [] false from rfl] at hp
      rcases List.mem_append.mp hp with h1 | h2
      · by_cases hpart : part = []
        · rw [if_pos hpart] at h1
          cases h1
        · rw [if_neg hpart, List.mem_singleton] at h1
          subst h1
          simp [hpart]
      · exact ih [] p h2
    | some d =>
      rw [show isplitModeGo delims line ((col, part, some d) :: rest) dragged false
          = (let mb := lookupDelim delims d
             let part1 : List Char :=
               match mb.1 with
               | DelimiterMode.WITH_PREVIOUS => part ++ d
               | _ => part
             let nextDrag : List Char :=
               match mb.1 with
               | DelimiterMode.WITH_NEXT => d
               | _ => []
             (if part1 = [] then []
              else [((col : Int) - dragged.length, dragged ++ part1)]) ++
               isplitModeGo delims line rest nextDrag mb.2) from rfl] at hp
      have ht := lookupDelim_no_terminate (d := d) hterm
      rcases hLU : lookupDelim delims d with ⟨mode, term⟩
      rw [hLU] at ht
      subst ht
      rw [hLU] at hp
      cases mode with
      | SKIP =>
        dsimp only at hp
        rcases List.mem_append.mp hp with h1 | h2
        · by_cases hpart : part = []
          · rw [if_pos hpart] at h1
            cases h1
          · rw [if_neg hpart, List.mem_singleton] at h1
            subst h1
            simp [hpart]
        · exact ih [] p h2
      | WITH_PREVIOUS =>
        dsimp only at hp
        rcases List.mem_append.mp hp with h1 | h2
        · by_cases hpart : part ++ d = []
          · rw [if_pos hpart] at h1
            cases h1
          · rw [if_neg hpart, List.mem_singleton] at h1
            subst h1
            intro hEq
            rw [List.append_eq_nil] at hEq
            exact hpart hEq.2
        · exact ih [] p h2
      | WITH_NEXT =>
        dsimp only at hp
        rcases List.mem_append.mp hp with h1 | h2
        · by_cases hpart : part = []
          · rw [if_pos hpart] at h1
            cases h1
          · rw [if_neg hpart, List.mem_singleton] at h1
            subst h1
            simp [hpart]
        · exact ih d p h2

/-- C6 amended: under a delimiter configuration with no stop-after
flags, every pair the splitter emits has non-empty statement text (the
emission guard tests the segment text after `WITH_PREVIOUS` attachment,
with the carried `WITH_NEXT` delimiter prepended on top of it); a
carried delimiter is prepended to the next emission with the reported
column decreased by the carry length — as in the concrete second
conjunct — but when the segment following a `WITH_NEXT` delimiter is
empty, nothing is emitted for that segment and the carried delimiter is
silently discarded (see the counterexample). -/
theorem c6_amended_splitter_emissions :
    (∀ (delims : DelimConf) (line : List Char),
      (∀ e ∈ delims, e.2.2 = false) →
      ∀ p ∈ isplit_mode delims line, p.2 ≠ []) ∧
    isplit_mode [("#".toList, DelimiterMode.WITH_NEXT, false)] "ab#cd".toList
      = [(0, "ab".toList), (2, "#cd".toList)] := by
  refine ⟨?_, by decide⟩
  intro delims line hterm p hp
  exact isplitModeGo_nonempty hterm _ [] p hp

theorem c6_amended_witness :
    ((0 : Int), "ab".toList).2 ≠ ([] : List Char) :=
  c6_amended_splitter_emissions.1 [("#".toList, DelimiterMode.WITH_NEXT, false)]
    "ab#cd".toList (by decide) (0, "ab".toList) (by decide)

/-- C6 counterexample: with the single delimiter `#` configured
`WITH_NEXT` (no stop flag) on the line `a##b`, the splitter emits
`[(0, "a"), (2, "#b")]`. The first `#` is carried, the segment between
the two delimiters is empty, so the emission guard — which tests only
the segment text, not the carry — fires nothing, and the carried `#` is
silently discarded: no emitted pair has text `#`, even though the
statement text after retention processing (`#` carry plus empty
segment) is non-empty. This refutes both the claimed emission `iff` and
the claim that a carried delimiter is never silently discarded. -/
theorem c6_counterexample :
    isplit_mode [("#".toList, DelimiterMode.WITH_NEXT, false)] "a##b".toList
        = [(0, "a".toList), (2, "#b".toList)] ∧
    ¬ ∃ p ∈ isplit_mode [("#".toList, DelimiterMode.WITH_NEXT, false)] "a##b".toList,
        p.2 = "#".toList := by
  exact ⟨by decide, by decide⟩

theorem dictInsert_keys (pp : PP) (k : KeyT) (v : ParsedSrc) :
    (dictInsert pp k v).map Prod.fst =
      if k ∈ pp.map Prod.fst then pp.map Prod.fst else pp.map Prod.fst ++ [k] := by
  induction pp with
  | nil => rfl
  | cons hd t ih =>
    obtain ⟨k0, v0⟩ := hd
    by_cases hk : k0 = k
    · subst hk
      rw [dictInsert, if_pos rfl]
      simp only [List.map_cons]
      rw [if_pos (List.mem_cons_self _ _)]
    · rw [dictInsert, if_neg hk]
      simp only [List.map_cons]
      rw [ih]
      by_cases hmem : k ∈ t.map Prod.fst
      · rw [if_pos hmem, if_pos (List.mem_cons_of_mem _ hmem)]
      · rw [if_neg hmem, if_neg (fun hcon => by
          rcases List.mem_cons.mp hcon with h | h
          · exact hk h.symm
          · exact hmem h)]
        rw [List.cons_append]

theorem driver_keys_bfs (world : SourceId → List (List Char))
    (locator : SourceId → List Char → SourceId) (bd : BClassL) (st : Bool)
    (dl : DelimConf) :
    ∀ (fuel : Nat) (queue : List (SourceId × List Char)) (pp : PP),
      (driver world locator bd st dl fuel pp queue).map (fun res => res.map Prod.fst)
        = (bfsDiscovery world locator bd st dl fuel queue).map
            (fun seq => keysAfter (pp.map Prod.fst) (seq.map some)) := by
  intro fuel
  induction fuel with
  | zero =>
    intro queue pp
    cases queue with
    | nil => rfl
    | cons q rest =>
      obtain ⟨src, tgt⟩ := q
      rfl
  | succ f ih =>
    intro queue pp
    cases queue with
    | nil => rfl
    | cons q rest =>
      obtain ⟨src, tgt⟩ := q
      rw [show driver world locator bd st dl (f + 1) pp ((src, tgt) :: rest)
          = driver world locator bd st dl f
              (dictInsert pp (some (src, tgt)) (parseOne bd st dl world (locator src tgt)))
              (rest ++ (includesOf (parseOne bd st dl world (locator src tgt)).tree).map
                (fun t => ((parseOne bd st dl world (locator src tgt)).origin, t)))
          from rfl]
      rw [show bfsDiscovery world locator bd st dl (f + 1) ((src, tgt) :: rest)
          = (bfsDiscovery world locator bd st dl f
              (rest ++ (includesOf (parseOne bd st dl world (locator src tgt)).tree).map
                (fun t => ((parseOne bd st dl world (locator src tgt)).origin, t)))).map
              (fun seq => (src, tgt) :: seq) from rfl]
      rw [ih]
      cases bfsDiscovery world locator bd st dl f
          (rest ++ (includesOf (parseOne bd st dl world (locator src tgt)).tree).map
            (fun t => ((parseOne bd st dl world (locator src tgt)).origin, t))) with
      | none => rfl
      | some seq =>
        simp only [Option.map_some', List.map_cons]
        rw [show keysAfter (pp.map Prod.fst) (some (src, tgt) :: seq.map some)
            = keysAfter (if some (src, tgt) ∈ pp.map Prod.fst then pp.map Prod.fst
                else pp.map Prod.fst ++ [some (src, tgt)]) (seq.map some) from rfl]
        rw [dictInsert_keys]

/-- C1 amended: the insertion order of keys in the returned project
mapping is the breadth-first (first-in-first-out) discovery order, not
the depth-first one: the key sequence is the `ROOT` key followed by the
first-visit order of the FIFO include queue, in which a source's
include targets are appended behind all pending targets discovered
earlier. `bfsDiscovery` is the queue-based discovery sequence stated in
those words; `keysAfter` keeps the first occurrence of each key, since
an already-present key is overwritten in place. -/
theorem c1_amended_insertion_order_is_bfs (fuel : Nat)
    (world : SourceId → List (List Char)) (locator : SourceId → List Char → SourceId)
    (bd : BClassL) (st : Bool) (dl : DelimConf) (entry : SourceId) :
    (parseProject fuel world locator bd st dl entry).map (fun pp => pp.map Prod.fst)
      = (bfsDiscovery world locator bd st dl fuel
            ((includesOf (parseOne bd st dl world entry).tree).map
              (fun t => ((parseOne bd st dl world entry).origin, t)))).map
          (fun seq => keysAfter [none] (seq.map some)) := by
  unfold parseProject
  exact driver_keys_bfs world locator bd st dl fuel _ _

/-- C1 counterexample: with entry `R` including `A` then `B`, and `A`
including `A1`, the project keys are inserted in breadth-first order
`ROOT, (R, A), (R, B), (A, A1)` — the source `A1`, reachable through
the earlier include directive `A` of `R`, is inserted after `(R, B)`,
which is reached through the later include directive `B` of `R`. This
refutes the claimed depth-first insertion order, which would be
`ROOT, (R, A), (A, A1), (R, B)`. -/
theorem c1_counterexample :
    (parseProject 10 worldDiamond locIdentity gramInc true [] "R".toList).map
        (fun pp => pp.map Prod.fst)
      = some [none, some ("R".toList, "A".toList), some ("R".toList, "B".toList),
          some ("A".toList, "A1".toList)] ∧
    ([none, some ("R".toList, "A".toList), some ("R".toList, "B".toList),
        some ("A".toList, "A1".toList)] : List KeyT)
      ≠ [none, some ("R".toList, "A".toList), some ("A".toList, "A1".toList),
          some ("R".toList, "B".toList)] := by
  exact ⟨by decide, by decide⟩

theorem driver_cycle_none :
    ∀ fuel : Nat,
      (∀ (pp : PP) (src : SourceId),
        driver worldCycle locIdentity gramInc true [] fuel pp [(src, "A".toList)] = none) ∧
      (∀ (pp : PP) (src : SourceId),
        driver worldCycle locIdentity gramInc true [] fuel pp [(src, "B".toList)] = none) := by
  intro fuel
  induction fuel with
  | zero => exact ⟨fun pp src => rfl, fun pp src => rfl⟩
  | succ f ih =>
    constructor
    · intro pp src
      rw [show driver worldCycle locIdentity gramInc true [] (f + 1) pp
            [(src, "A".toList)]
          = driver worldCycle locIdentity gramInc true [] f
              (dictInsert pp (some (src, "A".toList))
                (parseOne gramInc true [] worldCycle "A".toList))
              ((includesOf (parseOne gramInc true [] worldCycle "A".toList).tree).map
                (fun t => ((parseOne gramInc true [] worldCycle "A".toList).origin, t)))
          from rfl]
      rw [show (includesOf (parseOne gramInc true [] worldCycle "A".toList).tree).map
            (fun t => ((parseOne gramInc true [] worldCycle "A".toList).origin, t))
          = [("A".toList, "B".toList)] from by decide]
      exact ih.2 _ _
    · intro pp src
      rw [show driver worldCycle locIdentity gramInc true [] (f + 1) pp
            [(src, "B".toList)]
          = driver worldCycle locIdentity gramInc true [] f
              (dictInsert pp (some (src, "B".toList))
                (parseOne gramInc true [] worldCycle "B".toList))
              ((includesOf (parseOne gramInc true [] worldCycle "B".toList).tree).map
                (fun t => ((parseOne gramInc true [] worldCycle "B".toList).origin, t)))
          from rfl]
      rw [show (includesOf (parseOne gramInc true [] worldCycle "B".toList).tree).map
            (fun t => ((parseOne gramInc true [] worldCycle "B".toList).origin, t))
          = [("B".toList, "A".toList)] from by decide]
      exact ih.1 _ _

/-- C3 amended: the fatal duplicate-include error lives in
`ParsedProject._iter_statements`, not in the parse driver: during
statement iteration with `include_only_once` true, reaching an include
whose `(origin, target)` key is already in the seen set raises the
duplicate-include error at once (first conjunct). The parse driver
itself performs no duplicate detection: it re-parses a repeated key and
overwrites its entry (see the counterexample), and on a cyclic include
graph it does not terminate — on the two-source cycle `A` includes `B`
includes `A`, the fuel-indexed driver fails to complete for every fuel
bound (second conjunct). -/
theorem c3_amended_dup_raises_in_iter :
    (∀ (fuel : Nat) (pp : PP) (origin : SourceId) (tgt : List Char) (l c : Int)
      (rest : List Elem) (seen : List KeyT),
      some (origin, tgt) ∈ seen →
      iterStmts pp true fuel origin (⟨l, c, .includeStmt tgt⟩ :: rest) seen
        = .error (.dup (origin, tgt))) ∧
    (∀ fuel : Nat,
      parseProject fuel worldCycle locIdentity gramInc true [] "A".toList = none) := by
  constructor
  · intro fuel pp origin tgt l c rest seen hmem
    cases fuel with
    | zero => simp [iterStmts, hmem]
    | succ f => simp [iterStmts, hmem]
  · intro fuel
    rw [show parseProject fuel worldCycle locIdentity gramInc true [] "A".toList
        = driver worldCycle locIdentity gramInc true [] fuel
            [(none, parseOne gramInc true [] worldCycle "A".toList)]
            ((includesOf (parseOne gramInc true [] worldCycle "A".toList).tree).map
              (fun t => ((parseOne gramInc true [] worldCycle "A".toList).origin, t)))
        from rfl]
    rw [show (includesOf (parseOne gramInc true [] worldCycle "A".toList).tree).map
          (fun t => ((parseOne gramInc true [] worldCycle "A".toList).origin, t))
        = [("A".toList, "B".toList)] from by decide]
    exact (driver_cycle_none fuel).2 _ _

theorem c3_amended_witness :
    iterStmts [] true 5 "A".toList [⟨0, 0, .includeStmt "B".toList⟩]
        [some ("A".toList, "B".toList)] = .error (.dup ("A".toList, "B".toList)) :=
  c3_amended_dup_raises_in_iter.1 5 [] "A".toList "B".toList 0 0 []
    [some ("A".toList, "B".toList)] (by decide)

/-- C3 counterexample: with entry `R` whose source contains two include
directives for the same target `B`, the locator-resolved key
`(R, "B")` is reached a second time during the project parse, yet the
driver raises nothing: it parses `B` again, overwrites the existing
entry in place, and returns a normal two-entry project. This refutes
the claim that the framework signals a fatal duplicate-include error
escaping the entry point on the second visit. -/
theorem c3_counterexample :
    includesOf (parseOne gramInc true [] worldTwice "R".toList).tree
        = ["B".toList, "B".toList] ∧
    (parseProject 10 worldTwice locIdentity gramInc true [] "R".toList).map
        (fun pp => pp.map Prod.fst)
      = some [none, some ("R".toList, "B".toList)] := by
  exact ⟨by decide, by decide⟩

/-- C9 amended: `localized_errors` yields exactly the error nodes of
every parsed source's tree, in project value order — but each error is
yielded unchanged, carrying only its line and column, with no `SourceId`
augmentation (see the counterexample: projects differing only in their
origins yield identical error streams). -/
theorem c9_amended_yields_all_errors (pp : PP) (e : Elem) :
    e ∈ localized_errors pp ↔
      ∃ kv, kv ∈ pp ∧ e ∈ flattenE kv.2.tree ∧ isError e.payload = true := by
  unfold localized_errors errorsOf
  simp only [List.mem_flatten, List.mem_map]
  constructor
  · rintro ⟨l, ⟨⟨k, ps⟩, hkv, rfl⟩, he⟩
    rw [List.mem_filter] at he
    exact ⟨(k, ps), hkv, he.1, he.2⟩
  · rintro ⟨⟨k, ps⟩, hkv, hmem, herr⟩
    exact ⟨_, ⟨(k, ps), hkv, rfl⟩, List.mem_filter.mpr ⟨hmem, herr⟩⟩

/-- C9 counterexample: two single-source projects with identical trees
but different origins produce identical `localized_errors` streams, so
the yielded errors cannot carry the `SourceId` of the source they
originated from; the spec-modelled variant that does augment each error
with its origin distinguishes the two projects. This refutes the claim
that each yielded error is augmented with its originating `SourceId`. -/
theorem c9_counterexample :
    localized_errors [(none, ⟨treeWithError, [], "a".toList⟩)]
        = localized_errors [(none, ⟨treeWithError, [], "b".toList⟩)] ∧
    ("a".toList : SourceId) ≠ "b".toList ∧
    localizedErrorsSpec [(none, ⟨treeWithError, [], "a".toList⟩)]
        ≠ localizedErrorsSpec [(none, ⟨treeWithError, [], "b".toList⟩)] := by
  exact ⟨by decide, by decide, by decide⟩

end Flexparser
